import Mathlib

/-!
Shallow embedding of the libpapyrus lexer (src/lexer.rs), its source/position
helpers (src/lib.rs) and the diagnostic emitter's highlight computation
(src/errors.rs).

Modelling conventions:
* Source text is a `List Byte` where `Byte` is a `Nat` holding a value below
  256 (`content.bytes()` in the code).  Rust `String` values built by pushing
  `b as char` are modelled as the list of the pushed byte values.
* The scanner's `Bytes` iterator is the still-unconsumed suffix of the input;
  the absolute cursor position is `total - remaining.length`, exactly the
  code's `cur_pos = initial_len - bytes.len()`.
* A fatal diagnostic (`ErrorBuilder::fatal(..).span(lo, hi).emit()` followed by
  a non-local unwind) is modelled by `Except.error` carrying the title and the
  span offsets.  Non-fatal warnings (the lone `&` / lone `|` cases) print and
  return, affecting neither tokens nor control flow, so they are not modelled.
* `usize` subtraction in release builds wraps at 2 ^ 64; `usub` models that.
  (In the places where the code can actually underflow this matters, see the
  unterminated-string theorems.)
* `f32` decoding is not modelled (floating point): a float literal token
  carries the literal's text, and `str::parse::<f32>` success on the
  digits-and-dots strings the scanner builds is its syntactic condition,
  at most one `'.'`.
-/

abbrev Byte := Nat

/-- Release-mode `usize` arithmetic wraps at 2 ^ 64. -/
def USIZE : Nat := 2 ^ 64

/-- Wrapping `usize` subtraction (the operands in this code are below 2 ^ 64). -/
def usub (a b : Nat) : Nat := (a + USIZE - b % USIZE) % USIZE

/-- A fatal diagnostic: the `fatal(title)` text and the `span(lo, hi)` offsets
handed to `ErrorBuilder::emit`, which renders and then unwinds. -/
structure Fatal where
  msg : String
  lo : Nat
  hi : Nat
deriving DecidableEq

/-- `Game` from src/lib.rs: the two dialects. -/
inductive Game
  | TESV
  | FO4
deriving DecidableEq, Fintype

/-- `KwKind` from src/lexer.rs (strum `serialize_all = "lowercase"`, with
`_Self` serialized as `"self"`). -/
inductive KwKind
  | As | Auto | AutoReadOnly | Bool | Else | ElseIf | EndEvent | EndFunction
  | EndIf | EndProperty | EndState | EndWhile | Event | Extends | False
  | Float | Function | Global | If | Import | Int | Length | Native | New
  | None | Parent | Property | Return | ScriptName | _Self | State | String
  | True | While
  | BetaOnly | Const | CustomEvent | CustomEventName | DebugOnly | EndGroup
  | EndStruct | Group | Is | ScriptEventName | Struct | StructVarName | Var
deriving DecidableEq, Fintype

/-- `LitKind` from src/lexer.rs.  `Str` carries the decoded bytes; `Float`
carries the literal text (the `f32` value itself is not modelled); `Integer`
carries the parsed value and the `is_hex` flag. -/
inductive LitKind
  | Str (value : List Byte)
  | Float (text : List Byte)
  | Integer (value : Int) (is_hex : Bool)
deriving DecidableEq

/-- `TokenKind` from src/lexer.rs. -/
inductive TokenKind
  | Eof
  | Whitespace
  | Newline (is_crlf : Bool)
  | Doc (value : List Byte)
  | Comment (value : List Byte)
  | Literal (lit : LitKind)
  | Ident (value : List Byte)
  | Keyword (kind : KwKind)
  | LParen | RParen | LSquare | RSquare | Dot | Comma
  | Minus | MinusEq | Plus | PlusEq | Equal | Not
  | Multiply | MultiplyEq | Divide | DivideEq | Modulo | ModuleEq
  | CmpEQ | CmpNE | CmpLT | CmpLE | CmpGT | CmpGE | And | Or
deriving DecidableEq

/-- `Token` from src/lexer.rs: a kind and its half-open byte span `[lo, hi)`.
(`Token::new` panics when `lo > hi`; the scanner never constructs such a
token, see the span theorems.) -/
structure Token where
  kind : TokenKind
  lo : Nat
  hi : Nat
deriving DecidableEq

deriving instance DecidableEq for Except

/-- The bytes of an ASCII string literal, for readable concrete inputs. -/
def str_bytes (s : String) : List Byte := s.data.map Char.toNat

/-- `is_whitespace` from src/lexer.rs: space or tab. -/
def is_whitespace (byte : Byte) : Bool := byte == 32 || byte == 9

/-- `is_newline_start` from src/lexer.rs: `\r` or `\n`. -/
def is_newline_start (byte : Byte) : Bool := byte == 13 || byte == 10

/-- `is_id_start` from src/lexer.rs: ASCII letter or `_`. -/
def is_id_start (byte : Byte) : Bool :=
  decide (97 ≤ byte ∧ byte ≤ 122) || decide (65 ≤ byte ∧ byte ≤ 90) || byte == 95

/-- `is_id_continue` from src/lexer.rs: id start, digit, or `:` under FO4. -/
def is_id_continue (byte : Byte) (game : Game) : Bool :=
  is_id_start byte || decide (48 ≤ byte ∧ byte ≤ 57) ||
    (decide (game = Game.FO4) && byte == 58)

/-- `u8::to_ascii_lowercase`. -/
def to_ascii_lowercase (b : Byte) : Byte := if 65 ≤ b ∧ b ≤ 90 then b + 32 else b

/-- The strum-generated keyword spellings consulted by `KwKind::from_str`
(lowercase serialization of every variant, `_Self` as `"self"`).  One shared
table: the code does not branch on the dialect here. -/
def kw_table : List (List Byte × KwKind) :=
  [(str_bytes "as", .As), (str_bytes "auto", .Auto),
   (str_bytes "autoreadonly", .AutoReadOnly), (str_bytes "bool", .Bool),
   (str_bytes "else", .Else), (str_bytes "elseif", .ElseIf),
   (str_bytes "endevent", .EndEvent), (str_bytes "endfunction", .EndFunction),
   (str_bytes "endif", .EndIf), (str_bytes "endproperty", .EndProperty),
   (str_bytes "endstate", .EndState), (str_bytes "endwhile", .EndWhile),
   (str_bytes "event", .Event), (str_bytes "extends", .Extends),
   (str_bytes "false", .False), (str_bytes "float", .Float),
   (str_bytes "function", .Function), (str_bytes "global", .Global),
   (str_bytes "if", .If), (str_bytes "import", .Import),
   (str_bytes "int", .Int), (str_bytes "length", .Length),
   (str_bytes "native", .Native), (str_bytes "new", .New),
   (str_bytes "none", .None), (str_bytes "parent", .Parent),
   (str_bytes "property", .Property), (str_bytes "return", .Return),
   (str_bytes "scriptname", .ScriptName), (str_bytes "self", ._Self),
   (str_bytes "state", .State), (str_bytes "string", .String),
   (str_bytes "true", .True), (str_bytes "while", .While),
   (str_bytes "betaonly", .BetaOnly), (str_bytes "const", .Const),
   (str_bytes "customevent", .CustomEvent),
   (str_bytes "customeventname", .CustomEventName),
   (str_bytes "debugonly", .DebugOnly), (str_bytes "endgroup", .EndGroup),
   (str_bytes "endstruct", .EndStruct), (str_bytes "group", .Group),
   (str_bytes "is", .Is), (str_bytes "scripteventname", .ScriptEventName),
   (str_bytes "struct", .Struct), (str_bytes "structvarname", .StructVarName),
   (str_bytes "var", .Var)]

/-- `KwKind::from_str` on an already-lowercased spelling. -/
def kw_from_str (v : List Byte) : Option KwKind :=
  (kw_table.find? (fun p => p.1 == v)).map (fun p => p.2)

/-- The spelling of a keyword (the table key mapping to it). -/
def kw_spelling (k : KwKind) : List Byte :=
  ((kw_table.find? (fun p => p.2 == k)).map (fun p => p.1)).getD []

/-- `Lexer::whitespace`: consume the space/tab run, yield one token kind plus
the remaining bytes. -/
def whitespace : List Byte → TokenKind × List Byte
  | [] => (.Whitespace, [])
  | b :: t => if is_whitespace b then whitespace t else (.Whitespace, b :: t)

/-- `Lexer::newline`: `is_crlf` is `first_byte == b'\r'`; when it holds and the
next byte is `\n`, that byte is consumed as well. -/
def newline (first_byte : Byte) (l : List Byte) : TokenKind × List Byte :=
  let is_crlf := first_byte == 13
  if is_crlf && l.headD 0 == 10 then (.Newline is_crlf, l.tail)
  else (.Newline is_crlf, l)

/-- `Lexer::documentation`: consume through the next `}`; end of input is the
fatal unterminated-documentation diagnostic, `lo = cur_pos - value.len() - 1`
and `hi = lo + value.find('\n').unwrap_or(0) + 1`. -/
def documentation (total : Nat) : List Byte → List Byte → Except Fatal (TokenKind × List Byte)
  | [], value =>
    let lo := usub total (value.length + 1)
    .error ⟨"unterminated documentation block", lo,
            lo + ((value.findIdx? (fun b => b == 10)).getD 0) + 1⟩
  | b :: t, value =>
    if b = 125 then .ok (.Doc value, t)
    else documentation total t (value ++ [b])

/-- `Lexer::block_comment` after the leading `;` and `/` have been consumed:
consume through the next `/;`; a `/` not followed by `;` is kept as content.
End of input is the fatal unterminated-block-comment diagnostic. -/
def block_comment (total : Nat) : List Byte → List Byte → Except Fatal (TokenKind × List Byte)
  | [], value =>
    let lo := usub total (value.length + 2)
    .error ⟨"unterminated block comment", lo,
            lo + ((value.findIdx? (fun b => b == 10)).getD 0) + 2⟩
  | b :: t, value =>
    if b = 47 then
      if t.headD 0 = 59 then .ok (.Comment value, t.tail)
      else block_comment total t (value ++ [b])
    else block_comment total t (value ++ [b])

/-- `Lexer::line_comment`: consume up to (excluding) the next newline byte or
end of input. -/
def line_comment : List Byte → List Byte → TokenKind × List Byte
  | [], value => (.Comment value, [])
  | b :: t, value =>
    if is_newline_start b then (.Comment value, b :: t)
    else line_comment t (value ++ [b])

/-- `Lexer::string` after the opening quote: a closing `"` terminates; a bare
newline or end of input is the fatal unterminated-string diagnostic with
`lo = cur_pos - value.len() - 2` (wrapping `usize` subtraction) and
`hi = lo + value.len() + 1`; `\` introduces an escape whose only legal targets
are `n`, `t`, `\`, `"` (anything else, including end of input, is the fatal
invalid-escape diagnostic spanning `(cur_pos - 1, cur_pos + 1)`). -/
def string (total : Nat) : List Byte → List Byte → Except Fatal (LitKind × List Byte)
  | [], value =>
    let lo := usub total (value.length + 2)
    .error ⟨"unterminated string", lo, (lo + value.length + 1) % USIZE⟩
  | b :: t, value =>
    if b = 34 then .ok (.Str value, t)
    else if is_newline_start b then
      let lo := usub (total - t.length) (value.length + 2)
      .error ⟨"unterminated string", lo, (lo + value.length + 1) % USIZE⟩
    else if b = 92 then
      match t with
      | [] => .error ⟨"invalid escape character", usub total 1, total + 1⟩
      | c :: t' =>
        if c = 110 then string total t' (value ++ [10])
        else if c = 116 then string total t' (value ++ [9])
        else if c = 92 then string total t' (value ++ [92])
        else if c = 34 then string total t' (value ++ [34])
        else
          .error ⟨"invalid escape character",
                  usub (total - (c :: t').length) 1, total - (c :: t').length + 1⟩
    else string total t (value ++ [b])

/-- An ASCII hex digit (`0-9a-fA-F`), the characters `Lexer::number` accepts
after `0x`. -/
def is_hex_digit (b : Byte) : Bool :=
  decide (48 ≤ b ∧ b ≤ 57) || decide (97 ≤ b ∧ b ≤ 102) || decide (65 ≤ b ∧ b ≤ 70)

/-- The hex-digit prefix of the remaining bytes and the rest. -/
def hex_digits : List Byte → List Byte × List Byte
  | [] => ([], [])
  | b :: t =>
    if is_hex_digit b then
      let p := hex_digits t
      (b :: p.1, p.2)
    else ([], b :: t)

/-- The digits-and-dots prefix consumed by `Lexer::number`'s decimal loop,
whether a `.` was seen (`is_float`), and the rest. -/
def decimal_chars : List Byte → List Byte × Bool × List Byte
  | [] => ([], false, [])
  | b :: t =>
    if 48 ≤ b ∧ b ≤ 57 then
      let p := decimal_chars t
      (b :: p.1, p.2.1, p.2.2)
    else if b = 46 then
      let p := decimal_chars t
      (b :: p.1, true, p.2.2)
    else ([], false, b :: t)

/-- The numeric value of one hex digit byte. -/
def hex_val (b : Byte) : Nat :=
  if 48 ≤ b ∧ b ≤ 57 then b - 48 else if 97 ≤ b then b - 87 else b - 55

/-- The value of a hex-digit string (`i32::from_str_radix(value, 16)` without
its range check). -/
def parse_hex_nat (v : List Byte) : Nat := v.foldl (fun acc b => 16 * acc + hex_val b) 0

/-- The value of a decimal-digit string (`value.parse::<i32>()` without its
range check; the scanner's strings carry no sign). -/
def parse_dec_nat (v : List Byte) : Nat := v.foldl (fun acc b => 10 * acc + (b - 48)) 0

/-- `i32::MAX`, the bound of both integer parses. -/
def I32_MAX : Nat := 2147483647

/-- `Lexer::number`.  `first_digit` is the byte the dispatch matched; `l` is
the iterator's remaining bytes at the moment of the call.  In the main digit
dispatch arm the digit was consumed (`l` starts after it), but in the
`-`-then-digit arm the code passes the merely peeked digit, so `l` still
starts with it and the digit is scanned twice (see the sign-folding
theorems).  A leading `0` + peeked `x` selects hex parsing; otherwise digits
and dots accumulate after `value.push(first_digit)`.  Parse failures are
fatal diagnostics; `f32` parsing of a digits-and-dots string fails exactly
when it has two or more dots. -/
def number (total : Nat) (first_digit : Byte) (l : List Byte) : Except Fatal (LitKind × List Byte) :=
  if first_digit = 48 ∧ l.headD 0 = 120 then
    let p := hex_digits l.tail
    if p.1 ≠ [] ∧ parse_hex_nat p.1 ≤ I32_MAX then
      .ok (.Integer (parse_hex_nat p.1) true, p.2)
    else
      let hi := total - p.2.length
      .error ⟨"could not parse hex literal", usub hi (p.1.length + 2), hi⟩
  else
    let q := decimal_chars l
    let value := first_digit :: q.1
    let rest := q.2.2
    if q.2.1 then
      if value.count 46 ≤ 1 then .ok (.Float value, rest)
      else
        let hi := total - rest.length
        .error ⟨"could not parse float literal", usub hi value.length, hi⟩
    else if parse_dec_nat value ≤ I32_MAX then
      .ok (.Integer (parse_dec_nat value) false, rest)
    else
      let hi := total - rest.length
      .error ⟨"could not parse integer literal", usub hi value.length, hi⟩

/-- The identifier-continue run consumed by `Lexer::ident`'s loop and the
rest. -/
def ident_chars (game : Game) : List Byte → List Byte × List Byte
  | [] => ([], [])
  | b :: t =>
    if is_id_continue b game then
      let p := ident_chars game t
      (b :: p.1, p.2)
    else ([], b :: t)

/-- `Lexer::ident`: accumulate `first_char` plus the continue run, then check
the lowercased text against the keyword table (`KwKind::from_str`); a match
is a keyword token, otherwise an identifier preserving original case. -/
def ident (game : Game) (first_char : Byte) (l : List Byte) : TokenKind × List Byte :=
  let p := ident_chars game l
  let value := first_char :: p.1
  match kw_from_str (value.map to_ascii_lowercase) with
  | some kind => (.Keyword kind, p.2)
  | none => (.Ident value, p.2)

/-- `Lexer::has_equal_next`: on a peeked `=`, consume it and yield `yes`,
otherwise yield `no`. -/
def has_equal_next (yes no : TokenKind) (l : List Byte) : TokenKind × List Byte :=
  if l.headD 0 = 61 then (yes, l.tail) else (no, l)

/-- The first-byte dispatch of `Lexer::next_token`, after `first_byte` has
been consumed (`t` is the iterator's rest, `start_pos` the token's start).
`EOF_CHAR` is `0`, so an actual NUL byte also takes the end-of-input arm.
The final arm is the fatal unknown-lexeme diagnostic spanning
`(start_pos, cur_pos)`. -/
def next_token_kind (game : Game) (total start_pos : Nat) (first_byte : Byte)
    (t : List Byte) : Except Fatal (TokenKind × List Byte) :=
  if first_byte = 0 then .ok (.Eof, t)
  else if is_whitespace first_byte then .ok (whitespace t)
  else if is_newline_start first_byte then .ok (newline first_byte t)
  else if first_byte = 123 then documentation total t []
  else if first_byte = 59 then
    if t.headD 0 = 47 then block_comment total t.tail []
    else .ok (line_comment t [])
  else if first_byte = 34 then
    (string total t []).map (fun p => (.Literal p.1, p.2))
  else if 48 ≤ first_byte ∧ first_byte ≤ 57 then
    (number total first_byte t).map (fun p => (.Literal p.1, p.2))
  else if is_id_start first_byte then .ok (ident game first_byte t)
  else if first_byte = 40 then .ok (.LParen, t)
  else if first_byte = 41 then .ok (.RParen, t)
  else if first_byte = 91 then .ok (.LSquare, t)
  else if first_byte = 93 then .ok (.RSquare, t)
  else if first_byte = 46 then .ok (.Dot, t)
  else if first_byte = 44 then .ok (.Comma, t)
  else if first_byte = 45 then
    if t.headD 0 = 61 then .ok (.MinusEq, t.tail)
    else if 48 ≤ t.headD 0 ∧ t.headD 0 ≤ 57 then
      (number total (t.headD 0) t).map (fun p => (.Literal p.1, p.2))
    else .ok (.Minus, t)
  else if first_byte = 43 then .ok (has_equal_next .PlusEq .Plus t)
  else if first_byte = 61 then .ok (has_equal_next .CmpEQ .Equal t)
  else if first_byte = 33 then .ok (has_equal_next .CmpNE .Not t)
  else if first_byte = 42 then .ok (has_equal_next .MultiplyEq .Multiply t)
  else if first_byte = 47 then .ok (has_equal_next .DivideEq .Divide t)
  else if first_byte = 37 then .ok (has_equal_next .ModuleEq .Modulo t)
  else if first_byte = 60 then .ok (has_equal_next .CmpLE .CmpLT t)
  else if first_byte = 62 then .ok (has_equal_next .CmpGE .CmpGT t)
  else if first_byte = 38 then
    if t.headD 0 = 38 then .ok (.And, t.tail) else .ok (.And, t)
  else if first_byte = 124 then
    if t.headD 0 = 124 then .ok (.Or, t.tail) else .ok (.Or, t)
  else .error ⟨"unknown lexeme", start_pos, total - t.length⟩

/-- `Lexer::next_token` over the remaining bytes `l` of an input of `total`
bytes: the produced token spans `[start_pos, cur_pos)` where
`start_pos = total - l.length`, or a fatal diagnostic aborts the scan. -/
def next_token (game : Game) (total : Nat) (l : List Byte) : Except Fatal (Token × List Byte) :=
  let start_pos := total - l.length
  match l with
  | [] => .ok (⟨.Eof, start_pos, start_pos⟩, [])
  | first_byte :: t =>
    (next_token_kind game total start_pos first_byte t).map
      (fun p => (⟨p.1, start_pos, total - p.2.length⟩, p.2))

/-- The caller loop over `next_token` (as the crate's tests drive it): pull
tokens until the end-of-input token, stopping on a fatal diagnostic.  `fuel`
bounds the iteration; `tokenize` supplies more fuel than the scanner can
consume, since every call before end of input consumes at least one byte. -/
def lex_go (game : Game) (total : Nat) : Nat → List Byte → Except Fatal (List Token)
  | 0, _ => .ok []
  | fuel + 1, l =>
    match next_token game total l with
    | .error e => .error e
    | .ok (tok, rest) =>
      if tok.kind = .Eof then .ok [tok]
      else (lex_go game total fuel rest).map (tok :: ·)

/-- Lex a whole input from offset 0 to the end-of-input token. -/
def tokenize (game : Game) (input : List Byte) : Except Fatal (List Token) :=
  lex_go game input.length (input.length + 1) input

/-- `BufRead::read_line` on a byte slice: the bytes up to and including the
first `\n` (or everything at end of input) and the remaining bytes.  At end
of input it reads zero bytes. -/
def read_line : List Byte → List Byte × List Byte
  | [] => ([], [])
  | b :: t =>
    if b = 10 then ([b], t)
    else
      let p := read_line t
      (b :: p.1, p.2)

/-- The loop of `Source::lineno_from_offset`: read a line, stop when `offset`
falls inside it, else subtract the line length and continue with the next
line number.  The Rust loop has no termination guard, so the model takes
fuel; `none` means the loop was still running when the fuel ran out. -/
def lineno_go : Nat → List Byte → Nat → Nat → Option (Nat × Nat)
  | 0, _, _, _ => none
  | fuel + 1, content, offset, line_num =>
    let length := (read_line content).1.length
    if offset < length then some (line_num, offset)
    else lineno_go fuel (read_line content).2 (offset - length) (line_num + 1)

/-- `Source::lineno_from_offset`: 1-based line number and column offset of a
byte offset, via the fuelled loop. -/
def lineno_from_offset (content : List Byte) (offset : Nat) (fuel : Nat) : Option (Nat × Nat) :=
  lineno_go fuel content offset 1

/-- The loop of `Source::lines_from_linenos`: starting at `line_num`, push
each read line whose number is at least `lo`, and break once `line_num`
reaches `hi`.  `n` counts the iterations still to run after the current one
(the Rust loop runs for line numbers `1..max hi 1`). -/
def lines_go (lo : Nat) : Nat → List Byte → Nat → List (List Byte)
  | n, content, line_num =>
    let p := read_line content
    let acc := if lo ≤ line_num then [p.1] else []
    match n with
    | 0 => acc
    | m + 1 => acc ++ lines_go lo m p.2 (line_num + 1)

/-- `Source::lines_from_linenos`: every line whose 1-based number lies in
`[lo, hi]`, each retaining its terminator. -/
def lines_from_linenos (content : List Byte) (lo hi : Nat) : List (List Byte) :=
  lines_go lo (hi - 1) content 1

/-- The highlight range `ErrorBuilder::emit` computes for a span `[sLo, sHi)`
in line-relative coordinates: both offsets are converted to (line, column),
the spanned source lines are fetched, and the end column accumulates the
first line's remainder (when more than one line) and every interior line's
length (when more than two).  `none` stands for the cases where the code
does not produce a range: offset conversion not terminating within `fuel`,
or the empty-source-list internal-bug panic. -/
def emit_range (content : List Byte) (sLo sHi fuel : Nat) : Option (Nat × Nat) :=
  match lineno_from_offset content sLo fuel, lineno_from_offset content sHi fuel with
  | some (lo_line, lo_col), some (hi_line, hi_col) =>
    let source_list := lines_from_linenos content lo_line hi_line
    if source_list.isEmpty then none
    else
      let lo := lo_col
      let source_len := source_list.length
      let hi1 := hi_col + (if source_len > 1 then (source_list.headD []).length - lo_col else 0)
      let hi2 := hi1 +
        (if source_list.length > 2 then
          (((source_list.drop 1).take (source_list.length - 2)).map List.length).sum
        else 0)
      some (lo, hi2)
  | _, _ => none

/-- The content split into lines, each line retaining its `\n` terminator and
the last line possibly unterminated (how `read_line` decomposes it). -/
def split_lines : List Byte → List (List Byte)
  | [] => []
  | b :: t =>
    if b = 10 then [b] :: split_lines t
    else
      match split_lines t with
      | [] => [[b]]
      | ln :: rest => (b :: ln) :: rest

/-- The 1-based `i`-th line of the content, or `[]` past the end (matching
`read_line` reading zero bytes at end of input). -/
def line_at (content : List Byte) (i : Nat) : List Byte :=
  (split_lines content).getD (i - 1) []

/-- The summed byte length of the interior lines of a multi-line span: every
line strictly between `lo_line` and `hi_line`. -/
def interior_sum (content : List Byte) (lo_line hi_line : Nat) : Nat :=
  ((List.range' (lo_line + 1) (hi_line - lo_line - 1)).map
    (fun j => (line_at content j).length)).sum

/-- The highlight range as the specification words it: start column is `lo`'s
column; end column is `hi`'s column for a single-line span, and otherwise
the remainder of the first line after `lo`'s column, plus the full length of
every interior line, plus `hi`'s column on the last line. -/
def spec_highlight (content : List Byte) (lo_line lo_col hi_line hi_col : Nat) : Nat × Nat :=
  (lo_col,
   if lo_line = hi_line then hi_col
   else hi_col + ((line_at content lo_line).length - lo_col) + interior_sum content lo_line hi_line)

/-- The content with its first `k` lines removed (iterated `read_line`). -/
def drop_lines (content : List Byte) : Nat → List Byte
  | 0 => content
  | k + 1 => drop_lines (read_line content).2 k

/-- One byte matches some dispatch arm of `next_token` other than the final
unknown-lexeme arm: end-of-input sentinel, whitespace, newline start, `{`,
`;`, `"`, a digit, an identifier start, or one of the listed
punctuation/operator bytes. -/
def is_dispatch_byte (b : Byte) : Bool :=
  (b == 0) || is_whitespace b || is_newline_start b || (b == 123) || (b == 59) ||
    (b == 34) || decide (48 ≤ b ∧ b ≤ 57) || is_id_start b || (b == 40) ||
    (b == 41) || (b == 91) || (b == 93) || (b == 46) || (b == 44) || (b == 45) ||
    (b == 43) || (b == 61) || (b == 33) || (b == 42) || (b == 47) || (b == 37) ||
    (b == 60) || (b == 62) || (b == 38) || (b == 124)

/-- Well-formed string-literal content: only ASCII bytes, no bare `"`, no
newline byte, and every `\` immediately followed by one of the four legal
escape targets. -/
def wf_str : List Byte → Bool
  | [] => true
  | b :: t =>
    if b = 92 then
      match t with
      | [] => false
      | c :: t' =>
        (decide (c = 110) || decide (c = 116) || decide (c = 92) || decide (c = 34)) && wf_str t'
    else decide (b < 128) && !(b == 34) && !is_newline_start b && wf_str t

/-- The decoded value of well-formed string-literal content: each legal
escape sequence replaced by its single decoded character, other bytes kept. -/
def decode_str : List Byte → List Byte
  | [] => []
  | b :: t =>
    if b = 92 then
      match t with
      | [] => []
      | c :: t' =>
        if c = 110 then 10 :: decode_str t'
        else if c = 116 then 9 :: decode_str t'
        else if c = 92 then 92 :: decode_str t'
        else if c = 34 then 34 :: decode_str t'
        else []
    else b :: decode_str t

/-- Concatenation of the input's byte ranges `[lo, hi)` of a token list. -/
def join_slices (input : List Byte) (toks : List Token) : List Byte :=
  (toks.map (fun tk => (input.drop tk.lo).take (tk.hi - tk.lo))).flatten

/-- The token spans tile the input from `pos` to `total`: each token starts
where the previous one ended, spans never run backwards or past the end,
and the final end-offset is `total`. -/
def Tiles (total : Nat) : Nat → List Token → Prop
  | pos, [] => pos = total
  | pos, tk :: ts => tk.lo = pos ∧ pos ≤ tk.hi ∧ tk.hi ≤ total ∧ Tiles total tk.hi ts

/-- The span property claimed for a completed scan: at least one token, the
first starting at offset 0, contiguous spans, the last token the end-of-input
token ending at the input's byte length, and the concatenated byte ranges
reconstructing the input. -/
def SpansContiguous (input : List Byte) (toks : List Token) : Prop :=
  toks ≠ [] ∧
  (∀ tk ∈ toks.head?, tk.lo = 0) ∧
  List.Chain' (fun a b => a.hi = b.lo) toks ∧
  (∀ tk ∈ toks.getLast?, tk.kind = .Eof ∧ tk.hi = input.length) ∧
  join_slices input toks = input

/-- Destructuring `Except.map` on a successful result. -/
theorem except_map_eq_ok {ε α β : Type} {e : Except ε α} {f : α → β} {b : β}
    (h : e.map f = .ok b) : ∃ a, e = .ok a ∧ f a = b := by
  cases e with
  | error e => simp [Except.map] at h
  | ok a => exact ⟨a, rfl, by simpa [Except.map] using h⟩

/-- The whitespace sub-scanner yields a whitespace token kind and consumes
only bytes of the remaining input. -/
theorem whitespace_spec : ∀ l : List Byte,
    (whitespace l).1 = .Whitespace ∧ (whitespace l).2 <:+ l := by
  intro l
  induction l with
  | nil => simp [whitespace]
  | cons b t ih =>
    by_cases hb : is_whitespace b = true
    · exact ⟨by simp [whitespace, hb, ih.1], by
        simpa [whitespace, hb] using ih.2.trans (List.suffix_cons b t)⟩
    · simp [whitespace, hb]

/-- The newline sub-scanner yields a newline token kind whose flag is
`first_byte == 13` and consumes only bytes of the remaining input. -/
theorem newline_spec (first_byte : Byte) (l : List Byte) :
    (newline first_byte l).1 = .Newline (first_byte == 13) ∧
      (newline first_byte l).2 <:+ l := by
  simp only [newline]
  by_cases h : ((first_byte == 13) && l.headD 0 == 10) = true
  · rw [if_pos h]
    exact ⟨rfl, List.tail_suffix l⟩
  · rw [if_neg h]
    exact ⟨rfl, List.suffix_refl l⟩

/-- The line-comment sub-scanner yields a comment kind and consumes only
bytes of the remaining input. -/
theorem line_comment_spec : ∀ (l value : List Byte),
    (line_comment l value).1 ≠ .Eof ∧ (line_comment l value).2 <:+ l := by
  intro l
  induction l with
  | nil => simp [line_comment]
  | cons b t ih =>
    intro value
    by_cases hb : is_newline_start b = true
    · simp [line_comment, hb]
    · exact ⟨by simpa [line_comment, hb] using (ih _).1, by
        simpa [line_comment, hb] using (ih _).2.trans (List.suffix_cons b t)⟩

/-- A successful documentation scan yields a doc kind and consumes only bytes
of the remaining input. -/
theorem documentation_spec (total : Nat) : ∀ (l value : List Byte)
    (p : TokenKind × List Byte), documentation total l value = .ok p →
    p.1 ≠ .Eof ∧ p.2 <:+ l := by
  intro l
  induction l with
  | nil => intro value p h; simp [documentation] at h
  | cons b t ih =>
    intro value p h
    by_cases hb : b = 125
    · rw [documentation, if_pos hb] at h
      injection h with h
      subst h
      exact ⟨by simp, List.suffix_cons b t⟩
    · rw [documentation, if_neg hb] at h
      exact ⟨(ih _ _ h).1, (ih _ _ h).2.trans (List.suffix_cons b t)⟩

/-- A successful block-comment scan yields a comment kind and consumes only
bytes of the remaining input. -/
theorem block_comment_spec (total : Nat) : ∀ (l value : List Byte)
    (p : TokenKind × List Byte), block_comment total l value = .ok p →
    p.1 ≠ .Eof ∧ p.2 <:+ l := by
  intro l
  induction l with
  | nil => intro value p h; simp [block_comment] at h
  | cons b t ih =>
    intro value p h
    by_cases hb : b = 47
    · by_cases ht : t.headD 0 = 59
      · rw [block_comment, if_pos hb, if_pos ht] at h
        injection h with h
        subst h
        exact ⟨by simp, (List.tail_suffix t).trans (List.suffix_cons b t)⟩
      · rw [block_comment, if_pos hb, if_neg ht] at h
        exact ⟨(ih _ _ h).1, (ih _ _ h).2.trans (List.suffix_cons b t)⟩
    · rw [block_comment, if_neg hb] at h
      exact ⟨(ih _ _ h).1, (ih _ _ h).2.trans (List.suffix_cons b t)⟩

/-- Unfolding equation of the string sub-scanner on a nonempty remainder. -/
theorem string_cons (total : Nat) (b : Byte) (t value : List Byte) :
    string total (b :: t) value =
      (if b = 34 then .ok (.Str value, t)
       else if is_newline_start b = true then
         .error ⟨"unterminated string", usub (total - t.length) (value.length + 2),
           (usub (total - t.length) (value.length + 2) + value.length + 1) % USIZE⟩
       else if b = 92 then
         match t with
         | [] => .error ⟨"invalid escape character", usub total 1, total + 1⟩
         | c :: t' =>
           if c = 110 then string total t' (value ++ [10])
           else if c = 116 then string total t' (value ++ [9])
           else if c = 92 then string total t' (value ++ [92])
           else if c = 34 then string total t' (value ++ [34])
           else .error ⟨"invalid escape character", usub (total - (c :: t').length) 1,
             total - (c :: t').length + 1⟩
       else string total t (value ++ [b])) := by
  rw [string.eq_def]

/-- A successful string scan consumes only bytes of the remaining input. -/
theorem string_spec (total : Nat) : ∀ (l value : List Byte)
    (p : LitKind × List Byte), string total l value = .ok p → p.2 <:+ l := by
  intro l value
  induction l, value using string.induct total with
  | case1 value => intro p h; simp [string] at h
  | case2 t value =>
    intro p h
    rw [string_cons, if_pos rfl] at h
    injection h with h
    subst h
    exact List.suffix_cons 34 t
  | case3 b t value hb hnl =>
    intro p h
    rw [string_cons, if_neg hb, if_pos hnl] at h
    exact Except.noConfusion h
  | case4 value h34 hnl =>
    intro p h
    rw [string_cons, if_neg h34, if_neg hnl, if_pos rfl] at h
    exact Except.noConfusion h
  | case5 value t h34 hnl ih =>
    intro p h
    rw [show string total (92 :: 110 :: t) value = string total t (value ++ [10]) from rfl] at h
    exact ((ih _ h).trans (List.suffix_cons 110 t)).trans (List.suffix_cons 92 _)
  | case6 value t h34 hnl hc ih =>
    intro p h
    rw [show string total (92 :: 116 :: t) value = string total t (value ++ [9]) from rfl] at h
    exact ((ih _ h).trans (List.suffix_cons 116 t)).trans (List.suffix_cons 92 _)
  | case7 value t h34 hnl hc1 hc2 ih =>
    intro p h
    rw [show string total (92 :: 92 :: t) value = string total t (value ++ [92]) from rfl] at h
    exact ((ih _ h).trans (List.suffix_cons 92 t)).trans (List.suffix_cons 92 _)
  | case8 value t h34 hnl hc1 hc2 hc3 ih =>
    intro p h
    rw [show string total (92 :: 34 :: t) value = string total t (value ++ [34]) from rfl] at h
    exact ((ih _ h).trans (List.suffix_cons 34 t)).trans (List.suffix_cons 92 _)
  | case9 value b t hc1 hc2 hc3 hc4 h34 hnl =>
    intro p h
    rw [string_cons, if_neg h34, if_neg hnl, if_pos rfl] at h
    simp only [if_neg hc1, if_neg hc2, if_neg hc3, if_neg hc4] at h
    exact Except.noConfusion h
  | case10 b t value h34 hnl h92 ih =>
    intro p h
    rw [string_cons, if_neg h34, if_neg hnl, if_neg h92] at h
    exact (ih _ h).trans (List.suffix_cons b t)

/-- The hex-digit run consumes only bytes of the remaining input. -/
theorem hex_digits_suffix : ∀ l : List Byte, (hex_digits l).2 <:+ l := by
  intro l
  induction l with
  | nil => simp [hex_digits]
  | cons b t ih =>
    by_cases hb : is_hex_digit b = true
    · simpa [hex_digits, hb] using ih.trans (List.suffix_cons b t)
    · simp [hex_digits, hb]

/-- The digits-and-dots run consumes only bytes of the remaining input. -/
theorem decimal_chars_suffix : ∀ l : List Byte, (decimal_chars l).2.2 <:+ l := by
  intro l
  induction l with
  | nil => simp [decimal_chars]
  | cons b t ih =>
    by_cases hd : 48 ≤ b ∧ b ≤ 57
    · simpa [decimal_chars, hd] using ih.trans (List.suffix_cons b t)
    · by_cases hdot : b = 46
      · simpa [decimal_chars, hd, hdot] using ih.trans (List.suffix_cons b t)
      · simp [decimal_chars, hd, hdot]

/-- A successful number scan consumes only bytes of the remaining input. -/
theorem number_spec (total : Nat) (first_digit : Byte) (l : List Byte)
    (p : LitKind × List Byte) (h : number total first_digit l = .ok p) :
    p.2 <:+ l := by
  simp only [number] at h
  split_ifs at h with h1 h2 h3 h4 h5
  all_goals
    first
      | exact Except.noConfusion h
      | (injection h with h
         subst h
         first
           | exact (hex_digits_suffix l.tail).trans (List.tail_suffix l)
           | exact decimal_chars_suffix l)

/-- The identifier scanner yields an identifier or keyword kind and consumes
only bytes of the remaining input. -/
theorem ident_spec (game : Game) (first_char : Byte) (l : List Byte) :
    (ident game first_char l).1 ≠ .Eof ∧ (ident game first_char l).2 <:+ l := by
  have hsuf : ∀ m : List Byte, (ident_chars game m).2 <:+ m := by
    intro m
    induction m with
    | nil => simp [ident_chars]
    | cons b t ih =>
      by_cases hb : is_id_continue b game = true
      · simpa [ident_chars, hb] using ih.trans (List.suffix_cons b t)
      · simp [ident_chars, hb]
  unfold ident
  simp only [List.map_cons]
  cases hk : kw_from_str (to_ascii_lowercase first_char ::
      List.map to_ascii_lowercase (ident_chars game l).1) with
  | none => exact ⟨by simp [hk], by simpa [hk] using hsuf l⟩
  | some k => exact ⟨by simp [hk], by simpa [hk] using hsuf l⟩

/-- `has_equal_next` yields one of its two argument kinds and consumes only
bytes of the remaining input. -/
theorem has_equal_next_spec (yes no : TokenKind) (l : List Byte) :
    ((has_equal_next yes no l).1 = yes ∨ (has_equal_next yes no l).1 = no) ∧
      (has_equal_next yes no l).2 <:+ l := by
  unfold has_equal_next
  by_cases h : l.headD 0 = 61
  · rw [if_pos h]
    exact ⟨Or.inl rfl, List.tail_suffix l⟩
  · rw [if_neg h]
    exact ⟨Or.inr rfl, List.suffix_refl l⟩

set_option maxHeartbeats 1000000 in
/-- Every successful dispatch consumes only bytes of the remaining input, and
yields the end-of-input kind only for the `EOF_CHAR` sentinel byte. -/
theorem next_token_kind_ok (game : Game) (total sp : Nat) (b : Byte) (t : List Byte)
    (p : TokenKind × List Byte) (h : next_token_kind game total sp b t = .ok p) :
    p.2 <:+ t ∧ (b ≠ 0 → p.1 ≠ .Eof) := by
  unfold next_token_kind at h
  by_cases c1 : b = 0
  · rw [if_pos c1] at h
    injection h with h; subst h
    exact ⟨List.suffix_refl t, fun hb => absurd c1 hb⟩
  rw [if_neg c1] at h
  by_cases c2 : is_whitespace b = true
  · rw [if_pos c2] at h
    injection h with h; subst h
    exact ⟨(whitespace_spec t).2, fun _ => by rw [(whitespace_spec t).1]; simp⟩
  rw [if_neg c2] at h
  by_cases c3 : is_newline_start b = true
  · rw [if_pos c3] at h
    injection h with h; subst h
    exact ⟨(newline_spec b t).2, fun _ => by rw [(newline_spec b t).1]; simp⟩
  rw [if_neg c3] at h
  by_cases c4 : b = 123
  · rw [if_pos c4] at h
    exact ⟨(documentation_spec total t [] p h).2,
      fun _ => (documentation_spec total t [] p h).1⟩
  rw [if_neg c4] at h
  by_cases c5 : b = 59
  · rw [if_pos c5] at h
    by_cases c6 : t.headD 0 = 47
    · rw [if_pos c6] at h
      exact ⟨(block_comment_spec total t.tail [] p h).2.trans (List.tail_suffix t),
        fun _ => (block_comment_spec total t.tail [] p h).1⟩
    · rw [if_neg c6] at h
      injection h with h; subst h
      exact ⟨(line_comment_spec t []).2, fun _ => (line_comment_spec t []).1⟩
  rw [if_neg c5] at h
  by_cases c7 : b = 34
  · rw [if_pos c7] at h
    obtain ⟨a, ha, rfl⟩ := except_map_eq_ok h
    exact ⟨string_spec total t [] a ha, fun _ => by simp⟩
  rw [if_neg c7] at h
  by_cases c8 : 48 ≤ b ∧ b ≤ 57
  · rw [if_pos c8] at h
    obtain ⟨a, ha, rfl⟩ := except_map_eq_ok h
    exact ⟨number_spec total b t a ha, fun _ => by simp⟩
  rw [if_neg c8] at h
  by_cases c9 : is_id_start b = true
  · rw [if_pos c9] at h
    injection h with h; subst h
    exact ⟨(ident_spec game b t).2, fun _ => (ident_spec game b t).1⟩
  rw [if_neg c9] at h
  by_cases c10 : b = 40
  · rw [if_pos c10] at h
    injection h with h; subst h
    exact ⟨List.suffix_refl t, fun _ => by simp⟩
  rw [if_neg c10] at h
  by_cases c11 : b = 41
  · rw [if_pos c11] at h
    injection h with h; subst h
    exact ⟨List.suffix_refl t, fun _ => by simp⟩
  rw [if_neg c11] at h
  by_cases c12 : b = 91
  · rw [if_pos c12] at h
    injection h with h; subst h
    exact ⟨List.suffix_refl t, fun _ => by simp⟩
  rw [if_neg c12] at h
  by_cases c13 : b = 93
  · rw [if_pos c13] at h
    injection h with h; subst h
    exact ⟨List.suffix_refl t, fun _ => by simp⟩
  rw [if_neg c13] at h
  by_cases c14 : b = 46
  · rw [if_pos c14] at h
    injection h with h; subst h
    exact ⟨List.suffix_refl t, fun _ => by simp⟩
  rw [if_neg c14] at h
  by_cases c15 : b = 44
  · rw [if_pos c15] at h
    injection h with h; subst h
    exact ⟨List.suffix_refl t, fun _ => by simp⟩
  rw [if_neg c15] at h
  by_cases c16 : b = 45
  · rw [if_pos c16] at h
    by_cases c17 : t.headD 0 = 61
    · rw [if_pos c17] at h
      injection h with h; subst h
      exact ⟨List.tail_suffix t, fun _ => by simp⟩
    rw [if_neg c17] at h
    by_cases c18 : 48 ≤ t.headD 0 ∧ t.headD 0 ≤ 57
    · rw [if_pos c18] at h
      obtain ⟨a, ha, rfl⟩ := except_map_eq_ok h
      exact ⟨number_spec total (t.headD 0) t a ha, fun _ => by simp⟩
    · rw [if_neg c18] at h
      injection h with h; subst h
      exact ⟨List.suffix_refl t, fun _ => by simp⟩
  rw [if_neg c16] at h
  by_cases c19 : b = 43
  · rw [if_pos c19] at h
    injection h with h; subst h
    refine ⟨(has_equal_next_spec _ _ t).2, fun _ => ?_⟩
    rcases (has_equal_next_spec .PlusEq .Plus t).1 with h' | h' <;> rw [h'] <;> simp
  rw [if_neg c19] at h
  by_cases c20 : b = 61
  · rw [if_pos c20] at h
    injection h with h; subst h
    refine ⟨(has_equal_next_spec _ _ t).2, fun _ => ?_⟩
    rcases (has_equal_next_spec .CmpEQ .Equal t).1 with h' | h' <;> rw [h'] <;> simp
  rw [if_neg c20] at h
  by_cases c21 : b = 33
  · rw [if_pos c21] at h
    injection h with h; subst h
    refine ⟨(has_equal_next_spec _ _ t).2, fun _ => ?_⟩
    rcases (has_equal_next_spec .CmpNE .Not t).1 with h' | h' <;> rw [h'] <;> simp
  rw [if_neg c21] at h
  by_cases c22 : b = 42
  · rw [if_pos c22] at h
    injection h with h; subst h
    refine ⟨(has_equal_next_spec _ _ t).2, fun _ => ?_⟩
    rcases (has_equal_next_spec .MultiplyEq .Multiply t).1 with h' | h' <;> rw [h'] <;> simp
  rw [if_neg c22] at h
  by_cases c23 : b = 47
  · rw [if_pos c23] at h
    injection h with h; subst h
    refine ⟨(has_equal_next_spec _ _ t).2, fun _ => ?_⟩
    rcases (has_equal_next_spec .DivideEq .Divide t).1 with h' | h' <;> rw [h'] <;> simp
  rw [if_neg c23] at h
  by_cases c24 : b = 37
  · rw [if_pos c24] at h
    injection h with h; subst h
    refine ⟨(has_equal_next_spec _ _ t).2, fun _ => ?_⟩
    rcases (has_equal_next_spec .ModuleEq .Modulo t).1 with h' | h' <;> rw [h'] <;> simp
  rw [if_neg c24] at h
  by_cases c25 : b = 60
  · rw [if_pos c25] at h
    injection h with h; subst h
    refine ⟨(has_equal_next_spec _ _ t).2, fun _ => ?_⟩
    rcases (has_equal_next_spec .CmpLE .CmpLT t).1 with h' | h' <;> rw [h'] <;> simp
  rw [if_neg c25] at h
  by_cases c26 : b = 62
  · rw [if_pos c26] at h
    injection h with h; subst h
    refine ⟨(has_equal_next_spec _ _ t).2, fun _ => ?_⟩
    rcases (has_equal_next_spec .CmpGE .CmpGT t).1 with h' | h' <;> rw [h'] <;> simp
  rw [if_neg c26] at h
  by_cases c27 : b = 38
  · rw [if_pos c27] at h
    by_cases c28 : t.headD 0 = 38
    · rw [if_pos c28] at h
      injection h with h; subst h
      exact ⟨List.tail_suffix t, fun _ => by simp⟩
    · rw [if_neg c28] at h
      injection h with h; subst h
      exact ⟨List.suffix_refl t, fun _ => by simp⟩
  rw [if_neg c27] at h
  by_cases c29 : b = 124
  · rw [if_pos c29] at h
    by_cases c30 : t.headD 0 = 124
    · rw [if_pos c30] at h
      injection h with h; subst h
      exact ⟨List.tail_suffix t, fun _ => by simp⟩
    · rw [if_neg c30] at h
      injection h with h; subst h
      exact ⟨List.suffix_refl t, fun _ => by simp⟩
  rw [if_neg c29] at h
  exact Except.noConfusion h

/-- One `next_token` step: the leftover bytes are a suffix of the input, a
nonempty remainder shrinks strictly, the produced span is
`[total - l.length, total - rest.length)`, and (in the absence of NUL bytes)
the end-of-input kind appears only at the end of the input. -/
theorem next_token_ok {game : Game} {total : Nat} {l : List Byte}
    {p : Token × List Byte} (h : next_token game total l = .ok p) :
    p.2 <:+ l ∧ (l ≠ [] → p.2.length < l.length) ∧
      p.1.lo = total - l.length ∧ p.1.hi = total - p.2.length ∧
      ((0 : Byte) ∉ l → p.1.kind = .Eof → l = []) ∧
      (l = [] → p.1.kind = .Eof) := by
  match l with
  | [] =>
    unfold next_token at h
    injection h with h
    subst h
    simp
  | b :: t =>
    unfold next_token at h
    obtain ⟨a, ha, rfl⟩ := except_map_eq_ok h
    obtain ⟨hsuf, hkind⟩ := next_token_kind_ok game total (total - (b :: t).length) b t a ha
    have hlen : a.2.length ≤ t.length := hsuf.length_le
    refine ⟨hsuf.trans (List.suffix_cons b t), fun _ => by simp; omega, rfl, rfl, ?_,
      fun he => absurd he (by simp)⟩
    intro h0 hk
    exact absurd hk (hkind (fun hb => h0 (by simp [hb])))

/-- Unfolding equation of the caller loop at positive fuel. -/
theorem lex_go_succ (game : Game) (total fuel : Nat) (l : List Byte) :
    lex_go game total (fuel + 1) l =
      match next_token game total l with
      | .error e => .error e
      | .ok (tok, rest) =>
        if tok.kind = .Eof then .ok [tok]
        else (lex_go game total fuel rest).map (tok :: ·) := rfl

/-- A completed scan over NUL-free bytes produces tokens tiling the remaining
input, ending in the end-of-input token. -/
theorem lex_go_tiles (game : Game) (total : Nat) :
    ∀ (fuel : Nat) (l : List Byte) (toks : List Token),
      l.length < fuel → l.length ≤ total → (0 : Byte) ∉ l →
      lex_go game total fuel l = .ok toks →
      Tiles total (total - l.length) toks ∧ toks ≠ [] ∧
        ∀ tk ∈ toks.getLast?, tk.kind = .Eof := by
  intro fuel
  induction fuel with
  | zero => intro l toks hfuel; omega
  | succ fuel ih =>
    intro l toks hfuel htot h0 hlex
    rw [lex_go_succ] at hlex
    rcases hq : next_token game total l with e | ⟨tok, rest⟩
    · rw [hq] at hlex
      exact Except.noConfusion hlex
    obtain ⟨hsuf, hprog, hlo, hhi, heof, hnil⟩ := next_token_ok hq
    simp only at hsuf hprog hlo hhi heof hnil
    rw [hq] at hlex
    simp only at hlex
    by_cases hk : tok.kind = .Eof
    · rw [if_pos hk] at hlex
      injection hlex with hlex
      subst hlex
      have hl : l = [] := heof h0 hk
      subst hl
      have hr : rest = [] := List.suffix_nil.mp hsuf
      refine ⟨⟨hlo, ?_, ?_, ?_⟩, by simp, by simp [hk]⟩
      · rw [hhi, hr]
      · rw [hhi]
        exact Nat.sub_le total rest.length
      · show tok.hi = total
        rw [hhi, hr]
        simp
    · rw [if_neg hk] at hlex
      obtain ⟨ts, hts, rfl⟩ := except_map_eq_ok hlex
      have hlne : l ≠ [] := fun he => hk (hnil he)
      have hlt : rest.length < l.length := hprog hlne
      have hrt : rest.length ≤ total := le_trans (le_of_lt hlt) htot
      obtain ⟨htiles, hne, hlast⟩ := ih rest ts (by omega) hrt
        (fun hm => h0 (hsuf.subset hm)) hts
      refine ⟨⟨hlo, ?_, ?_, ?_⟩, by simp, ?_⟩
      · rw [hhi]
        exact Nat.sub_le_sub_left (le_of_lt hlt) total
      · rw [hhi]
        exact Nat.sub_le total rest.length
      · show Tiles total tok.hi ts
        rw [hhi]
        exact htiles
      · intro tk htk
        rcases ts with _ | ⟨t1, ts'⟩
        · exact absurd rfl hne
        · rw [List.getLast?_cons_cons] at htk
          exact hlast tk htk

/-- In a tiling token list the last token ends at the total length. -/
theorem tiles_getLast_hi (total : Nat) :
    ∀ (toks : List Token) (pos : Nat), Tiles total pos toks →
      ∀ tk ∈ toks.getLast?, tk.hi = total := by
  intro toks
  induction toks with
  | nil => simp
  | cons a ts ih =>
    intro pos ht
    rcases ts with _ | ⟨b, ts'⟩
    · intro tk htk
      simp only [List.getLast?_singleton, Option.mem_def, Option.some.injEq] at htk
      subst htk
      exact ht.2.2.2
    · intro tk htk
      rw [List.getLast?_cons_cons] at htk
      exact ih a.hi ht.2.2.2 tk htk

/-- In a tiling token list consecutive spans are contiguous. -/
theorem tiles_chain (total : Nat) :
    ∀ (toks : List Token) (pos : Nat), Tiles total pos toks →
      List.Chain' (fun a b => a.hi = b.lo) toks := by
  intro toks
  induction toks with
  | nil => simp
  | cons a ts ih =>
    intro pos ht
    rcases ts with _ | ⟨b, ts'⟩
    · simp
    · exact List.chain'_cons.mpr ⟨ht.2.2.2.1.symm, ih a.hi ht.2.2.2⟩

/-- Concatenating the byte ranges of a tiling token list reconstructs the
input from the tiling start. -/
theorem tiles_join (input : List Byte) :
    ∀ (toks : List Token) (pos : Nat), Tiles input.length pos toks →
      join_slices input toks = input.drop pos := by
  intro toks
  induction toks with
  | nil =>
    intro pos ht
    have : pos = input.length := ht
    rw [this]
    simp [join_slices]
  | cons a ts ih =>
    intro pos ht
    obtain ⟨hlo, hpos, hhi, hrest⟩ := ht
    subst hlo
    simp only [join_slices, List.map_cons, List.flatten_cons]
    have hih := ih a.hi hrest
    simp only [join_slices] at hih
    rw [hih]
    rw [show input.drop a.hi = (input.drop a.lo).drop (a.hi - a.lo) by
      rw [List.drop_drop]; congr 1; omega]
    exact List.take_append_drop _ _

/-- C1: for every NUL-free input lexed to completion without a fatal
diagnostic, the produced tokens have contiguous spans: the first starts at
offset 0, each token's end-offset is the next one's start-offset, the final
end-of-input token ends at the input's byte length, and concatenating the
input's byte ranges of every token reconstructs the input exactly.  (An
embedded NUL byte is consumed as an end-of-input token and breaks the last
two properties, see the counterexample.) -/
theorem c1_spans (game : Game) (input : List Byte) (toks : List Token)
    (hnul : (0 : Byte) ∉ input) (h : tokenize game input = .ok toks) :
    SpansContiguous input toks := by
  obtain ⟨htiles, hne, hlast⟩ := lex_go_tiles game input.length (input.length + 1)
    input toks (by omega) (le_refl _) hnul h
  rw [Nat.sub_self] at htiles
  refine ⟨hne, ?_, tiles_chain _ _ _ htiles, ?_, ?_⟩
  · intro tk htk
    rcases toks with _ | ⟨a, ts⟩
    · exact absurd rfl hne
    · simp only [List.head?_cons, Option.mem_def, Option.some.injEq] at htk
      subst htk
      exact htiles.1
  · intro tk htk
    exact ⟨hlast tk htk, tiles_getLast_hi _ _ _ htiles tk htk⟩
  · simpa using tiles_join input toks 0 htiles

/-- C1 witness: the property holds concretely for the input `"a b"`. -/
theorem c1_spans_witness :
    SpansContiguous [97, 32, 98]
      [⟨.Ident [97], 0, 1⟩, ⟨.Whitespace, 1, 2⟩, ⟨.Ident [98], 2, 3⟩, ⟨.Eof, 3, 3⟩] :=
  c1_spans Game.TESV [97, 32, 98] _ (by decide) rfl

/-- C1 counterexample: on the input `a NUL b` the scan completes without a
fatal diagnostic, but the NUL byte is lexed as an end-of-input token, so the
final end-of-input token's end-offset is 2, not the input length 3, and the
concatenated ranges drop the final `b`: the claim fails as stated for inputs
containing a NUL byte. -/
theorem c1_nul_counterexample :
    tokenize Game.TESV [97, 0, 98] = .ok [⟨.Ident [97], 0, 1⟩, ⟨.Eof, 1, 2⟩] ∧
      ¬ SpansContiguous [97, 0, 98] [⟨.Ident [97], 0, 1⟩, ⟨.Eof, 1, 2⟩] := by
  refine ⟨rfl, fun hsc => ?_⟩
  have hlast := (hsc.2.2.2.1 ⟨.Eof, 1, 2⟩ (by simp)).2
  simp at hlast

/-- C2: `-` followed by a digit does not fold the sign into the literal: the
peeked digit is passed to `number` unconsumed and scanned twice, so `-5`
lexes as the single integer literal 55 (and `-12` as 112), not −5. -/
theorem c2_minus_digit_eval :
    tokenize Game.TESV (str_bytes "-5") =
      .ok [⟨.Literal (.Integer 55 false), 0, 2⟩, ⟨.Eof, 2, 2⟩] ∧
    tokenize Game.TESV (str_bytes "-12") =
      .ok [⟨.Literal (.Integer 112 false), 0, 3⟩, ⟨.Eof, 3, 3⟩] :=
  ⟨rfl, rfl⟩

/-- C3: an unterminated string reaching end of input computes its diagnostic
span as `cur_pos - value.len() - 2`, which underflows `usize` (here
`3 - 2 - 2`): the release-mode span starts at 2 ^ 64 − 1, past the end of
the 3-byte input and above its own end offset (and a debug build panics on
the subtraction before emitting anything). -/
theorem c3_unterminated_eof_eval :
    next_token Game.TESV 3 (str_bytes "\"ab") =
      .error ⟨"unterminated string", 2 ^ 64 - 1, 2⟩ ∧ 3 < 2 ^ 64 - 1 :=
  ⟨rfl, by norm_num⟩

/-- C4 counterexample: `struct` spells an FO4-only keyword, yet under the
TESV dialect it still lexes as the `Struct` keyword token, not as a plain
identifier: the keyword table consulted by `ident` does not depend on the
dialect. -/
theorem c4_struct_tesv_counterexample :
    next_token Game.TESV 6 (str_bytes "struct") = .ok (⟨.Keyword .Struct, 0, 6⟩, []) :=
  rfl

/-- C4 amended: the keyword table is shared between the dialects: every
keyword's spelling lexes to that keyword token under both dialects. -/
theorem c4_keywords_shared :
    ∀ (g : Game) (k : KwKind),
      next_token g (kw_spelling k).length (kw_spelling k) =
        .ok (⟨.Keyword k, 0, (kw_spelling k).length⟩, []) := by
  decide

/-- C5: `lineno_from_offset` does not terminate at `offset = len(content)`:
on content `"ab"` with offset 2, `read_line` keeps returning zero bytes at
end of input, the offset is never reduced below the current line length, and
the loop runs forever (the model returns `none` for every fuel). -/
theorem c5_offset_eq_len_loops :
    ∀ fuel : Nat, lineno_from_offset (str_bytes "ab") 2 fuel = none := by
  have aux : ∀ (fuel line_num : Nat), lineno_go fuel [] 0 line_num = none := by
    intro fuel
    induction fuel with
    | zero => intro _; rfl
    | succ n ih => intro ln; simpa [lineno_go, read_line] using ih (ln + 1)
  intro fuel
  cases fuel with
  | zero => rfl
  | succ n => simpa [lineno_from_offset, lineno_go, read_line, str_bytes] using aux n 2

/-- C6: a first byte matching none of the dispatch arms makes `next_token`
abort with the fatal unknown-lexeme diagnostic spanning that byte; no token
is produced. -/
theorem c6_unknown_lexeme (game : Game) (total : Nat) (b : Byte) (t : List Byte)
    (h : is_dispatch_byte b = false) :
    next_token game total (b :: t) =
      .error ⟨"unknown lexeme", total - (b :: t).length, total - t.length⟩ := by
  simp only [is_dispatch_byte, Bool.or_eq_false_iff, beq_eq_false_iff_ne, ne_eq,
    decide_eq_false_iff_not] at h
  obtain ⟨⟨⟨⟨⟨⟨⟨⟨⟨⟨⟨⟨⟨⟨⟨⟨⟨⟨⟨⟨⟨⟨⟨⟨h0, hw⟩, hn⟩, h123⟩, h59⟩, h34⟩, hdig⟩, hid⟩,
    h40⟩, h41⟩, h91⟩, h93⟩, h46⟩, h44⟩, h45⟩, h43⟩, h61⟩, h33⟩, h42⟩, h47⟩,
    h37⟩, h60⟩, h62⟩, h38⟩, h124⟩ := h
  simp [next_token, next_token_kind, h0, hw, hn, h123, h59, h34, hdig, hid,
    h40, h41, h91, h93, h46, h44, h45, h43, h61, h33, h42, h47, h37, h60, h62,
    h38, h124, Except.map]

/-- C6 witness: the byte `@` (64) matches no dispatch arm and aborts the scan
with the unknown-lexeme diagnostic spanning it. -/
theorem c6_unknown_lexeme_witness :
    is_dispatch_byte 64 = false ∧
      next_token Game.TESV 1 [64] = .error ⟨"unknown lexeme", 0, 1⟩ :=
  ⟨by decide, c6_unknown_lexeme Game.TESV 1 64 [] (by decide)⟩

/-- C7 amended: the newline token's CRLF flag is true exactly when the token
STARTS with `\r` — also for a lone `\r` not followed by `\n` — and the
two-byte `\r\n` sequence is consumed into one token when present. -/
theorem c7_crlf_flag (game : Game) (t : List Byte) :
    next_token game (t.length + 2) (13 :: 10 :: t) = .ok (⟨.Newline true, 0, 2⟩, t) ∧
    next_token game (t.length + 1) (10 :: t) = .ok (⟨.Newline false, 0, 1⟩, t) ∧
    (t.headD 0 ≠ 10 →
      next_token game (t.length + 1) (13 :: t) = .ok (⟨.Newline true, 0, 1⟩, t)) := by
  refine ⟨?_, ?_, fun h => ?_⟩
  · simp [next_token, next_token_kind, newline, is_whitespace, is_newline_start, Except.map]
  · simp [next_token, next_token_kind, newline, is_whitespace, is_newline_start, Except.map]
  · rcases t with _ | ⟨x, t'⟩
    · simp [next_token, next_token_kind, newline, is_whitespace, is_newline_start, Except.map]
    · simp only [List.headD_cons] at h
      simp [next_token, next_token_kind, newline, is_whitespace, is_newline_start, h,
        Except.map]

/-- C7 counterexample: a lone `\r` (not followed by `\n`) yields a one-byte
newline token that still records the CRLF flag, refuting "a newline token
produced from any other newline byte sequence does not record is-CRLF". -/
theorem c7_lone_cr_counterexample :
    next_token Game.TESV 1 [13] = .ok (⟨.Newline true, 0, 1⟩, []) := rfl

/-- C8: `foo:bar` lexes as one identifier under FO4 (which admits `:` inside
identifiers) and, under TESV, as the identifier `foo` followed by the fatal
unknown-lexeme diagnostic at the `:` byte. -/
theorem c8_dialect_colon :
    tokenize Game.FO4 (str_bytes "foo:bar") =
      .ok [⟨.Ident (str_bytes "foo:bar"), 0, 7⟩, ⟨.Eof, 7, 7⟩] ∧
    tokenize Game.TESV (str_bytes "foo:bar") = .error ⟨"unknown lexeme", 3, 4⟩ :=
  ⟨rfl, rfl⟩

/-- Unfolding equation of `decode_str` on a cons cell. -/
theorem decode_str_cons (b : Byte) (t : List Byte) :
    decode_str (b :: t) =
      (if b = 92 then
        match t with
        | [] => []
        | c :: t' =>
          if c = 110 then 10 :: decode_str t'
          else if c = 116 then 9 :: decode_str t'
          else if c = 92 then 92 :: decode_str t'
          else if c = 34 then 34 :: decode_str t'
          else []
      else b :: decode_str t) := by
  rw [decode_str.eq_def]

/-- Scanning well-formed string content followed by the closing quote
succeeds, appending the decoded content to the accumulated value and leaving
exactly the bytes after the quote. -/
theorem string_wf (total : Nat) : ∀ s : List Byte, wf_str s = true →
    ∀ value rest : List Byte,
      string total (s ++ 34 :: rest) value = .ok (.Str (value ++ decode_str s), rest) := by
  intro s
  induction s using wf_str.induct with
  | case1 =>
    intro _ value rest
    rw [List.nil_append, string_cons, if_pos rfl]
    simp [decode_str]
  | case2 =>
    intro h
    simp [wf_str] at h
  | case3 c t' hwf =>
    intro h value rest
    rw [show wf_str (92 :: c :: t') =
        ((decide (c = 110) || decide (c = 116) || decide (c = 92) || decide (c = 34)) &&
          wf_str t') from rfl] at h
    simp only [Bool.and_eq_true, Bool.or_eq_true, decide_eq_true_eq] at h
    obtain ⟨hc, ht⟩ := h
    rcases hc with ((rfl | rfl) | rfl) | rfl
    · rw [show (92 :: 110 :: t') ++ 34 :: rest = 92 :: 110 :: (t' ++ 34 :: rest) from rfl,
        show string total (92 :: 110 :: (t' ++ 34 :: rest)) value =
          string total (t' ++ 34 :: rest) (value ++ [10]) from rfl,
        hwf ht (value ++ [10]) rest,
        show decode_str (92 :: 110 :: t') = 10 :: decode_str t' from rfl]
      simp
    · rw [show (92 :: 116 :: t') ++ 34 :: rest = 92 :: 116 :: (t' ++ 34 :: rest) from rfl,
        show string total (92 :: 116 :: (t' ++ 34 :: rest)) value =
          string total (t' ++ 34 :: rest) (value ++ [9]) from rfl,
        hwf ht (value ++ [9]) rest,
        show decode_str (92 :: 116 :: t') = 9 :: decode_str t' from rfl]
      simp
    · rw [show (92 :: 92 :: t') ++ 34 :: rest = 92 :: 92 :: (t' ++ 34 :: rest) from rfl,
        show string total (92 :: 92 :: (t' ++ 34 :: rest)) value =
          string total (t' ++ 34 :: rest) (value ++ [92]) from rfl,
        hwf ht (value ++ [92]) rest,
        show decode_str (92 :: 92 :: t') = 92 :: decode_str t' from rfl]
      simp
    · rw [show (92 :: 34 :: t') ++ 34 :: rest = 92 :: 34 :: (t' ++ 34 :: rest) from rfl,
        show string total (92 :: 34 :: (t' ++ 34 :: rest)) value =
          string total (t' ++ 34 :: rest) (value ++ [34]) from rfl,
        hwf ht (value ++ [34]) rest,
        show decode_str (92 :: 34 :: t') = 34 :: decode_str t' from rfl]
      simp
  | case4 b t h92 hwf =>
    intro h value rest
    rw [wf_str.eq_def] at h
    dsimp only at h
    rw [if_neg h92] at h
    simp only [Bool.and_eq_true, Bool.not_eq_eq_eq_not, Bool.not_true, beq_eq_false_iff_ne,
      ne_eq, decide_eq_true_eq] at h
    obtain ⟨⟨⟨hlt, h34⟩, hnl⟩, ht⟩ := h
    rw [List.cons_append, string_cons, if_neg h34,
      if_neg (by rw [hnl]; exact Bool.false_ne_true), if_neg h92,
      hwf ht (value ++ [b]) rest, decode_str_cons, if_neg h92]
    simp

/-- C10: a terminated string literal whose content is ASCII and well-formed
(no bare quote, no newline, only legal escapes) lexes to a string token whose
value is the content with each escape sequence replaced by its decoded
character and the delimiting quotes excluded, spanning the whole literal. -/
theorem c10_string_value (game : Game) (s rest : List Byte) (h : wf_str s = true) :
    next_token game (34 :: s ++ 34 :: rest).length (34 :: s ++ 34 :: rest) =
      .ok (⟨.Literal (.Str (decode_str s)), 0, s.length + 2⟩, rest) := by
  have hs := string_wf (s.length + (rest.length + 1) + 1) s h [] rest
  simp [next_token, next_token_kind, is_whitespace, is_newline_start, Except.map, hs]
  omega

/-- C10 witness: the literal `"a\nb"` lexes to the string value `a`, line
feed, `b`. -/
theorem c10_string_value_witness :
    next_token Game.TESV 6 [34, 97, 92, 110, 98, 34] =
      .ok (⟨.Literal (.Str [97, 10, 98]), 0, 6⟩, []) :=
  c10_string_value Game.TESV [97, 92, 110, 98] [] (by decide)

/-- `split_lines` decomposes as one `read_line` step followed by splitting
the rest. -/
theorem split_lines_eq : ∀ l : List Byte, l ≠ [] →
    split_lines l = (read_line l).1 :: split_lines (read_line l).2 := by
  intro l
  induction l with
  | nil => intro h; exact absurd rfl h
  | cons b t ih =>
    intro _
    by_cases h10 : b = 10
    · simp [split_lines, read_line, h10]
    · rcases t with _ | ⟨c, t'⟩
      · simp [split_lines, read_line, h10]
      · have iht := ih (by simp)
        rw [show split_lines (b :: c :: t') =
            (match split_lines (c :: t') with
             | [] => [[b]]
             | ln :: rest => (b :: ln) :: rest) from by
          rw [split_lines.eq_def]; dsimp only; rw [if_neg h10]]
        rw [show read_line (b :: c :: t') =
            (b :: (read_line (c :: t')).1, (read_line (c :: t')).2) from by
          rw [read_line.eq_def]; dsimp only; rw [if_neg h10]]
        rw [iht]

/-- Dropping lines of exhausted content stays exhausted. -/
theorem drop_lines_nil : ∀ k : Nat, drop_lines [] k = [] := by
  intro k
  induction k with
  | zero => rfl
  | succ m ih => simpa [drop_lines, read_line] using ih

/-- Dropping one more line reads one line from the already-dropped rest. -/
theorem drop_lines_succ : ∀ (k : Nat) (content : List Byte),
    drop_lines content (k + 1) = (read_line (drop_lines content k)).2 := by
  intro k
  induction k with
  | zero => intro content; rfl
  | succ m ih =>
    intro content
    show drop_lines (read_line content).2 (m + 1) = _
    rw [ih ((read_line content).2)]
    rfl

/-- Reading a line after dropping `k` lines yields the 1-based line `k + 1`
of the content (or the empty line past the end). -/
theorem read_line_drop_lines : ∀ (k : Nat) (content : List Byte),
    (read_line (drop_lines content k)).1 = line_at content (k + 1) := by
  intro k
  induction k with
  | zero =>
    intro content
    rcases content with _ | ⟨b, t⟩
    · simp [drop_lines, read_line, line_at, split_lines]
    · rw [show drop_lines (b :: t) 0 = b :: t from rfl, line_at,
        split_lines_eq (b :: t) (by simp)]
      simp
  | succ m ih =>
    intro content
    rcases content with _ | ⟨b, t⟩
    · rw [drop_lines_nil]
      simp [read_line, line_at, split_lines]
    · rw [show drop_lines (b :: t) (m + 1) = drop_lines (read_line (b :: t)).2 m from rfl,
        ih ((read_line (b :: t)).2), line_at, line_at,
        split_lines_eq (b :: t) (by simp)]
      simp

/-- The fetch loop from line `k + 1`, when every remaining line is at or past
`lo`, collects exactly the lines `k + 1 .. k + 1 + n`. -/
theorem lines_go_eq_map (content : List Byte) (lo : Nat) :
    ∀ (n k : Nat), lo ≤ k + 1 →
      lines_go lo n (drop_lines content k) (k + 1) =
        (List.range' (k + 1) (n + 1)).map (line_at content) := by
  intro n
  induction n with
  | zero =>
    intro k hlo
    rw [show lines_go lo 0 (drop_lines content k) (k + 1) =
        (if lo ≤ k + 1 then [(read_line (drop_lines content k)).1] else []) from rfl,
      if_pos hlo, read_line_drop_lines k content]
    simp [List.range'_one]
  | succ m ih =>
    intro k hlo
    rw [show lines_go lo (m + 1) (drop_lines content k) (k + 1) =
        (if lo ≤ k + 1 then [(read_line (drop_lines content k)).1] else []) ++
          lines_go lo m (read_line (drop_lines content k)).2 (k + 2) from rfl,
      if_pos hlo, read_line_drop_lines k content, ← drop_lines_succ k content,
      ih (k + 1) (by omega)]
    simp [List.range'_succ]

/-- The fetch loop skips the lines before `lo` without collecting them. -/
theorem lines_go_skip (content : List Byte) (lo : Nat) :
    ∀ (j n k : Nat), k + 1 + j = lo → j ≤ n →
      lines_go lo n (drop_lines content k) (k + 1) =
        lines_go lo (n - j) (drop_lines content (k + j)) (k + j + 1) := by
  intro j
  induction j with
  | zero => intro n k _ _; simp
  | succ i ih =>
    intro n k hlo hle
    have hklo : ¬ lo ≤ k + 1 := by omega
    rcases n with _ | m
    · omega
    rw [show lines_go lo (m + 1) (drop_lines content k) (k + 1) =
        (if lo ≤ k + 1 then [(read_line (drop_lines content k)).1] else []) ++
          lines_go lo m (read_line (drop_lines content k)).2 (k + 2) from rfl,
      if_neg hklo, ← drop_lines_succ k content]
    rw [show (k + 1) + 1 = (k + 1) + 1 from rfl]
    have := ih m (k + 1) (by omega) (by omega)
    rw [List.nil_append, this]
    congr 1
    · omega
    · congr 1
      omega
    · omega

/-- `lines_from_linenos` over a valid line range fetches exactly the lines
`l1 .. l2` (empty lines past the end of content). -/
theorem lines_from_linenos_eq (content : List Byte) (l1 l2 : Nat)
    (h1 : 1 ≤ l1) (h12 : l1 ≤ l2) :
    lines_from_linenos content l1 l2 =
      (List.range' l1 (l2 - l1 + 1)).map (line_at content) := by
  unfold lines_from_linenos
  have hskip := lines_go_skip content l1 (l1 - 1) (l2 - 1) 0 (by omega) (by omega)
  simp only [Nat.zero_add] at hskip
  rw [show drop_lines content 0 = content from rfl] at hskip
  rw [hskip,
    lines_go_eq_map content l1 ((l2 - 1) - (l1 - 1)) (l1 - 1) (by omega),
    show l1 - 1 + 1 = l1 by omega, show (l2 - 1) - (l1 - 1) + 1 = l2 - l1 + 1 by omega]

/-- The offset-to-line loop only moves the line number forward. -/
theorem lineno_go_ge : ∀ (fuel : Nat) (content : List Byte) (offset ln line col : Nat),
    lineno_go fuel content offset ln = some (line, col) → ln ≤ line := by
  intro fuel
  induction fuel with
  | zero => intro _ _ _ _ _ h; exact Option.noConfusion h
  | succ m ih =>
    intro content offset ln line col h
    rw [show lineno_go (m + 1) content offset ln =
        (if offset < (read_line content).1.length then some (ln, offset)
         else lineno_go m (read_line content).2
           (offset - (read_line content).1.length) (ln + 1)) from rfl] at h
    by_cases hc : offset < (read_line content).1.length
    · rw [if_pos hc] at h
      injection h with h
      rw [Prod.mk.injEq] at h
      exact le_of_eq h.1
    · rw [if_neg hc] at h
      exact le_trans (by omega) (ih _ _ _ _ _ h)

/-- C9: for every rendered span, the highlight range `ErrorBuilder::emit`
computes in line-relative coordinates is: start column = `lo`'s column on its
line; end column = `hi`'s column for a single-line span, and otherwise the
remainder of the first line after `lo`'s column, plus the full length of
every interior line, plus `hi`'s column on the last line. -/
theorem c9_emit_highlight (content : List Byte) (sLo sHi fuel lo_line lo_col hi_line hi_col : Nat)
    (h1 : lineno_from_offset content sLo fuel = some (lo_line, lo_col))
    (h2 : lineno_from_offset content sHi fuel = some (hi_line, hi_col))
    (h12 : lo_line ≤ hi_line) :
    emit_range content sLo sHi fuel =
      some (spec_highlight content lo_line lo_col hi_line hi_col) := by
  have hl1 : 1 ≤ lo_line := lineno_go_ge fuel content sLo 1 lo_line lo_col h1
  unfold emit_range
  rw [h1, h2]
  dsimp only
  rw [lines_from_linenos_eq content lo_line hi_line hl1 h12,
    List.range'_succ, List.map_cons]
  simp only [List.isEmpty_cons, Bool.false_eq_true, if_false, List.headD_cons,
    List.length_cons, List.length_map, List.length_range', List.drop_succ_cons,
    List.drop_zero]
  unfold spec_highlight
  by_cases hn : lo_line = hi_line
  · subst hn
    simp [Nat.sub_self]
  · have hlt : lo_line < hi_line := lt_of_le_of_ne h12 hn
    rw [if_pos (show hi_line - lo_line + 1 > 1 by omega), if_neg hn]
    by_cases h2l : hi_line - lo_line + 1 > 2
    · rw [if_pos h2l,
        show hi_line - lo_line + 1 - 2 = hi_line - lo_line - 1 by omega,
        ← List.map_take]
      rw [show (List.range' (lo_line + 1) (hi_line - lo_line)).take (hi_line - lo_line - 1) =
          List.range' (lo_line + 1) (hi_line - lo_line - 1) from by
        have happ := List.range'_append (lo_line + 1) (hi_line - lo_line - 1) 1 1
        rw [show 1 + (hi_line - lo_line - 1) = hi_line - lo_line by omega] at happ
        rw [← happ]
        exact List.take_left' (List.length_range' _ _ _)]
      rw [List.map_map]
      rfl
    · rw [if_neg h2l]
      have hz : hi_line - lo_line - 1 = 0 := by omega
      simp [interior_sum, hz]

/-- C9 witness: on content `"ab\ncd\nef"`, the span `[1, 7)` runs from line 1
column 1 to line 3 column 1, and the emitter's highlight range matches the
specification formula. -/
theorem c9_emit_highlight_witness :
    emit_range (str_bytes "ab\ncd\nef") 1 7 10 =
      some (spec_highlight (str_bytes "ab\ncd\nef") 1 1 3 1) :=
  c9_emit_highlight (str_bytes "ab\ncd\nef") 1 7 10 1 1 3 1 rfl rfl (by norm_num)
